import Mathlib

/-!
Verification of the binassets cipher and virtual filesystem.

Shallow embedding of `binassets.go` (package `binassets`): the
authenticated-encryption transform (`Encrypt` / `Decrypt`), the bulk
collection decrypt, and the virtual filesystem (`Open`, `Readdir` with
pagination) built over the flat `AssetCollection` map.

Bytes are modelled as `List Nat`; the AES block primitive, CBC mode and
HMAC-SHA256 come from Go's standard library, so they are abstracted as a
parameter structure `AEPrims` together with the contract `AEPrims.Good`
(CBC encryption/decryption are mutually inverse length-preserving maps for
each key and IV, the MAC always produces 32 bytes).  The repository's own
logic — PKCS#7 padding, the `IV ‖ ciphertext ‖ MAC` layout, the length and
MAC checks, padding truncation — is translated line by line.
-/

namespace Binassets

/-- A byte string (each entry a byte value). -/
abbrev Bytes := List Nat

/-- Key validity: `aes.NewCipher` succeeds exactly for 16/24/32-byte keys
(AES-128/192/256); the Go code propagates its error otherwise. -/
def validKeyLength (key : Bytes) : Bool :=
  key.length == 16 || key.length == 24 || key.length == 32

/-- The cryptographic primitives used by the Go code via the standard
library: CBC-mode encryption and decryption (`cipher.NewCBCEncrypter` /
`cipher.NewCBCDecrypter` + `CryptBlocks`) as functions of key, IV and
data, and `hmac.New(sha256.New, key)` as a function of key and message. -/
structure AEPrims where
  cbcEnc : Bytes → Bytes → Bytes → Bytes
  cbcDec : Bytes → Bytes → Bytes → Bytes
  mac : Bytes → Bytes → Bytes

/-- Contract satisfied by the real primitives: CBC keeps length and
decryption inverts encryption (for any key/IV); the MAC tag is 32 bytes
(`sha256.Size`). -/
def AEPrims.Good (P : AEPrims) : Prop :=
  (∀ k iv d, (P.cbcEnc k iv d).length = d.length) ∧
  (∀ k iv d, (P.cbcDec k iv d).length = d.length) ∧
  (∀ k iv d, P.cbcDec k iv (P.cbcEnc k iv d) = d) ∧
  (∀ k m, (P.mac k m).length = 32)

/-- Errors surfaced by `Encrypt`/`Decrypt`.  `sliceBound` models the Go
runtime panic of a slice expression `b[:n]` with `n < 0` (reachable in
`Decrypt` when the padding byte exceeds the decrypted length). -/
inductive CError where
  | invalidKeyLength
  | invalidLength
  | invalidHMAC
  | sliceBound
deriving DecidableEq, Repr

/-- The PKCS#7 padding loop of `Encrypt`:
`padding := aes.BlockSize - (len(data) % aes.BlockSize)` followed by
`padding` appends of `byte(padding)` (the count is in 1..16, so the byte
cast is the identity). -/
def pkcs7pad (data : Bytes) : Bytes :=
  let padding := 16 - data.length % 16
  data ++ List.replicate padding padding

/-- Model of `Encrypt(key, data)` from `binassets.go`: key check (via
`aes.NewCipher`), PKCS#7 pad, CBC-encrypt with a fresh 16-byte IV
(passed here as the explicit argument `iv`, standing for the
`rand.Reader` bytes), output `iv ‖ cbc ‖ HMAC(key, iv ‖ cbc)`. -/
def Encrypt (P : AEPrims) (key iv data : Bytes) : Except CError Bytes :=
  if validKeyLength key = true then
    let body := iv ++ P.cbcEnc key iv (pkcs7pad data)
    .ok (body ++ P.mac key body)
  else .error .invalidKeyLength

/-- Model of `Decrypt(key, data)` from `binassets.go`, checks in source order:
length first (`len(data) < aes.BlockSize*2+sha256.Size` or
`(len(data)-sha256.Size) % aes.BlockSize != 0`), then the key (via
`aes.NewCipher`), then `hmac.Equal` over `data[:len-32]` against the
trailing 32 bytes, then CBC-decrypt `data[16:len-32]` with IV
`data[:16]`, finally truncate by the last decrypted byte
(`ciphertext[:len(ciphertext)-int(last)]`; a count above the length
makes that Go slice expression panic, modelled as `sliceBound`). -/
def Decrypt (P : AEPrims) (key data : Bytes) : Except CError Bytes :=
  if data.length < 64 ∨ (data.length - 32) % 16 ≠ 0 then .error .invalidLength
  else if validKeyLength key = true then
    if P.mac key (data.take (data.length - 32)) = data.drop (data.length - 32) then
      let iv := data.take 16
      let pt := P.cbcDec key iv ((data.drop 16).take (data.length - 48))
      let padCount := pt.getD (pt.length - 1) 0
      if pt.length < padCount then .error .sliceBound
      else .ok (pt.take (pt.length - padCount))
    else .error .invalidHMAC
  else .error .invalidKeyLength

/-- A concrete instance of the primitives used to evaluate the embedded
code on closed inputs: CBC is the identity transform and the MAC is the
constant zero tag.  It satisfies the `Good` contract. -/
def idPrims : AEPrims where
  cbcEnc := fun _ _ d => d
  cbcDec := fun _ _ d => d
  mac := fun _ _ => List.replicate 32 0

/-!
Virtual filesystem.

The `AssetCollection` map is embedded as an association list (Go map
iteration is modelled by list order; key uniqueness, guaranteed by the
map, appears as a `Nodup` hypothesis where a theorem needs it).
-/

/-- The `AssetCollection` map (`map[string][]byte`). -/
abbrev AssetStore := List (String × Bytes)

/-- Model of `strings.Split(p, "/")` for the single-character separator `/`,
structurally over the character list. -/
def splitSlash : List Char → List (List Char)
  | [] => [[]]
  | c :: cs =>
    let r := splitSlash cs
    if c = '/' then [] :: r
    else
      match r with
      | h :: t => (c :: h) :: t
      | [] => [[c]]

/-- Model of `pathComponents` from `binassets.go`: split on `/` and drop empty
components. -/
def pathComponents (p : String) : List String :=
  ((splitSlash p.data).map String.mk).filter (fun c => !(c == ""))

/-- Model of `strings.HasPrefix(s, pre)`, structurally over character lists. -/
def chStartsWith : List Char → List Char → Bool
  | [], _ => true
  | a :: as, b :: bs => a == b && chStartsWith as bs
  | _ :: _, [] => false

def strStartsWith (s pre : String) : Bool := chStartsWith pre.data s.data

/-- The inner loop shared by `Open` and `Readdir`:
`for i, c := range basePath { if c != components[i] { continue } }` —
position-wise equality of `base` with the front of `comps` (when `comps`
is shorter than `base` the Go loop would index out of range; both
callers guard against that case). -/
def segMatches : List String → List String → Bool
  | [], _ => true
  | _ :: _, [] => false
  | b :: bs, c :: cs => b == c && segMatches bs cs

/-- The directory-match test of `Open`: the stored key has strictly more
components than the queried path (`len(components) <= len(basePath)`
is skipped) and agrees with it position-wise. -/
def segExtends (base comps : List String) : Bool :=
  decide (base.length < comps.length) && segMatches base comps

/-- Go map lookup `c[path]`, as first match in the association list. -/
def lookupKey (c : AssetStore) (p : String) : Option Bytes :=
  (c.find? (fun kv => kv.1 == p)).map Prod.snd

/-- Result of `AssetCollection.Open`: a leaf asset (`data` set), a
synthetic directory asset (`data == nil`), or `os.ErrNotExist`. -/
inductive OpenResult where
  | leaf (path : String) (data : Bytes)
  | dir (path : String)
  | notFound
deriving DecidableEq, Repr

/-- Model of `AssetCollection.Open` from `binassets.go`: exact key match gives a
leaf; otherwise the first stored key whose components strictly extend
the queried path's components yields a synthetic directory; otherwise
`os.ErrNotExist`. -/
def Open (c : AssetStore) (p : String) : OpenResult :=
  match lookupKey c p with
  | some v => .leaf p v
  | none =>
    if c.any (fun kv => segExtends (pathComponents p) (pathComponents kv.1)) then
      .dir p
    else .notFound

/-- One `os.FileInfo` entry produced by `Readdir`: a leaf asset over a
stored key, or a synthetic directory (`data == nil`). -/
inductive Entry where
  | leafE (path : String) (data : Bytes)
  | dirE (path : String)
deriving DecidableEq, Repr

/-- The per-key guard of the `FindDirs` loop in `Readdir`: skip the
directory's own path, keys without the directory path as a string prefix
(`strings.HasPrefix`), and keys whose components do not match the
directory's components position-wise. -/
def readdirMatch (p k : String) : Bool :=
  !(k == p) && strStartsWith k p && segMatches (pathComponents p) (pathComponents k)

/-- Model of `path.Join` on clean segments (no empty, `.` or `..` segments, as
produced by `pathComponents` on invariant-satisfying keys). -/
def joinSegs : List String → String
  | [] => ""
  | [s] => s
  | s :: rest => s ++ "/" ++ joinSegs rest

/-- Model of `path.Join(components[:len(basePath)+1]...)`: the synthetic child
directory recorded for a key nested two or more segments deep. -/
def childDirName (p k : String) : String :=
  joinSegs ((pathComponents k).take ((pathComponents p).length + 1))

/-- First-occurrence de-duplication with an accumulator, modelling
insertion into the `dirs` set (`map[string]struct{}`) of `Readdir` in
store-iteration order. -/
def dedupGo (acc : List String) : List String → List String
  | [] => acc
  | s :: rest => dedupGo (if acc.contains s then acc else acc ++ [s]) rest

def dedup (l : List String) : List String := dedupGo [] l

/-- The full child list computed by `Readdir` before pagination: leaf
entries for matching keys at most one component deeper
(`len(components) <= len(basePath)+1`), in store order, followed by one
synthetic directory entry per distinct immediate child of the deeper
matching keys. -/
def readdirAll (c : AssetStore) (p : String) : List Entry :=
  (c.filter (fun kv =>
      readdirMatch p kv.1
        && !(decide ((pathComponents p).length + 1 < (pathComponents kv.1).length)))).map
      (fun kv => Entry.leafE kv.1 kv.2)
    ++ (dedup ((c.filter (fun kv =>
        readdirMatch p kv.1
          && decide ((pathComponents p).length + 1 < (pathComponents kv.1).length))).map
        (fun kv => childDirName p kv.1))).map Entry.dirE

/-- The mutable per-handle state of an opened asset that `Readdir`
uses: its path, its data (`none` for a synthetic directory) and the
listing offset.  (The byte-read cursor of leaf assets plays no role in
the listed claims and is omitted.) -/
structure VFile where
  path : String
  data : Option Bytes
  readDirOffset : Nat
deriving Repr

/-- Model of `asset.Readdir(count)` from `binassets.go`: on a non-directory,
empty result, `io.EOF` and offset reset; on a directory, recompute the
child list, drop the current offset, truncate to `count` when
`count > 0 && len(files) > count`, signal `io.EOF` and reset the offset
when nothing is left, otherwise advance the offset.  Returns
`(files, eof?, updated handle)`. -/
def Readdir (c : AssetStore) (a : VFile) (count : Int) : List Entry × Bool × VFile :=
  if a.data.isSome then ([], true, { a with readDirOffset := 0 })
  else
    let files := (readdirAll c a.path).drop a.readDirOffset
    let files :=
      if 0 < count ∧ count < (files.length : Int) then files.take count.toNat
      else files
    if files.isEmpty then ([], true, { a with readDirOffset := 0 })
    else (files, false, { a with readDirOffset := a.readDirOffset + files.length })

/-- Model of `AssetCollection.Decrypt(key)` from `binassets.go`: decrypt each
entry in turn, replacing the value in place; the first failure returns
immediately with that entry's error, leaving the failing and later
entries untouched. -/
def collectionDecrypt (P : AEPrims) (key : Bytes) : AssetStore → AssetStore × Option CError
  | [] => ([], none)
  | (k, v) :: rest =>
    match Decrypt P key v with
    | .error e => ((k, v) :: rest, some e)
    | .ok d =>
      let r := collectionDecrypt P key rest
      ((k, d) :: r.1, r.2)

/-- The value an entry holds after a successful decryption pass. -/
def decOk (P : AEPrims) (key v : Bytes) : Bytes :=
  match Decrypt P key v with
  | .ok d => d
  | .error _ => v

theorem idPrims_good : idPrims.Good :=
  ⟨fun _ _ _ => rfl, fun _ _ _ => rfl, fun _ _ _ => rfl,
   fun _ _ => List.length_replicate 32 0⟩

theorem pkcs7pad_def (data : Bytes) :
    pkcs7pad data
      = data ++ List.replicate (16 - data.length % 16) (16 - data.length % 16) := rfl

theorem pkcs7pad_length (data : Bytes) :
    (pkcs7pad data).length = data.length + (16 - data.length % 16) := by
  simp [pkcs7pad]

theorem pkcs7pad_length_mod (data : Bytes) : (pkcs7pad data).length % 16 = 0 := by
  rw [pkcs7pad_length]; omega

theorem pkcs7pad_last (data : Bytes) :
    (pkcs7pad data).getD ((pkcs7pad data).length - 1) 0 = 16 - data.length % 16 := by
  have h1 : 1 ≤ 16 - data.length % 16 := by omega
  rw [List.getD_eq_getElem?_getD, pkcs7pad_length, pkcs7pad_def,
    List.getElem?_append_right (by omega)]
  have hidx : data.length + (16 - data.length % 16) - 1 - data.length
      = 16 - data.length % 16 - 1 := by omega
  rw [hidx, List.getElem?_replicate, if_pos (by omega)]
  rfl

/-- Core round-trip computation: decrypting an `Encrypt` output under the
same key and the `Good` primitive contract recovers the plaintext. -/
theorem decrypt_encrypt_aux (P : AEPrims) (key iv data out : Bytes) (hP : P.Good)
    (hiv : iv.length = 16) (henc : Encrypt P key iv data = .ok out) :
    Decrypt P key out = .ok data := by
  obtain ⟨hEncLen, hDecLen, hInv, hMacLen⟩ := hP
  unfold Encrypt at henc
  by_cases hk : validKeyLength key = true
  · rw [if_pos hk] at henc
    simp only [] at henc
    injection henc with henc
    subst henc
    set padded := pkcs7pad data with hpadded
    set enc := P.cbcEnc key iv padded with hencdef
    set body := iv ++ enc with hbody
    set tag := P.mac key body with htag
    have hencl : enc.length = padded.length := hEncLen key iv padded
    have hpl : padded.length = data.length + (16 - data.length % 16) :=
      pkcs7pad_length data
    have hmod : padded.length % 16 = 0 := pkcs7pad_length_mod data
    have hbl : body.length = 16 + padded.length := by
      rw [hbody, List.length_append, hiv, hencl]
    have htl : tag.length = 32 := hMacLen key body
    have houtl : (body ++ tag).length = 48 + padded.length := by
      rw [List.length_append, hbl, htl]; omega
    unfold Decrypt
    rw [if_neg (by rw [houtl]; omega)]
    rw [if_pos hk]
    have hcut : (body ++ tag).length - 32 = body.length := by rw [houtl, hbl]; omega
    rw [hcut, List.take_left, List.drop_left, if_pos htag.symm]
    simp only []
    have hivtake : (body ++ tag).take 16 = iv := by
      rw [hbody, List.append_assoc]
      exact List.take_left' hiv
    have hctdrop : (body ++ tag).drop 16 = enc ++ tag := by
      rw [hbody, List.append_assoc]
      exact List.drop_left' hiv
    have hct48 : (body ++ tag).length - 48 = padded.length := by rw [houtl]; omega
    rw [hivtake, hctdrop, hct48, List.take_left' hencl, hencdef, hInv key iv padded,
      hpadded, pkcs7pad_last]
    rw [if_neg (by rw [pkcs7pad_length]; omega)]
    have hfinal : (pkcs7pad data).length - (16 - data.length % 16) = data.length := by
      rw [pkcs7pad_length]; omega
    rw [hfinal, pkcs7pad_def, List.take_left]
  · rw [if_neg hk] at henc
    exact absurd henc (by simp)

/-- Helper: `Decrypt` reports the invalid-length error exactly on the inputs the
first check rejects, for every key (valid or not) and every primitive
instantiation. -/
theorem invalidLength_iff (P : AEPrims) (key data : Bytes) :
    Decrypt P key data = .error .invalidLength ↔
      data.length < 64 ∨ (data.length - 32) % 16 ≠ 0 := by
  unfold Decrypt
  by_cases h : data.length < 64 ∨ (data.length - 32) % 16 ≠ 0
  · simp [h]
  · rw [if_neg h]
    simp only [h, iff_false]
    by_cases hk : validKeyLength key = true
    · rw [if_pos hk]
      by_cases hm : P.mac key (data.take (data.length - 32))
          = data.drop (data.length - 32)
      · rw [if_pos hm]
        split <;> simp
      · rw [if_neg hm]; simp
    · rw [if_neg hk]; simp

/-- Length of a successful `Encrypt` output:
`IV (16) + padded plaintext + MAC (32)`. -/
theorem encrypt_ok_length (P : AEPrims) (key iv data out : Bytes) (hP : P.Good)
    (hiv : iv.length = 16) (henc : Encrypt P key iv data = .ok out) :
    out.length = data.length + (16 - data.length % 16) + 48 := by
  obtain ⟨hEncLen, _, _, hMacLen⟩ := hP
  unfold Encrypt at henc
  by_cases hk : validKeyLength key = true
  · rw [if_pos hk] at henc
    simp only [] at henc
    injection henc with henc
    subst henc
    rw [List.length_append, List.length_append, hiv, hEncLen, hMacLen,
      pkcs7pad_length]
    omega
  · rw [if_neg hk] at henc
    exact absurd henc (by simp)

/-- Claim C1: for every key of length 16/24/32 and every plaintext (and
every 16-byte IV drawn by `Encrypt`, with the primitives satisfying the
standard-library contract), `Encrypt` succeeds and `Decrypt` of its
output under the same key returns exactly the original plaintext. -/
theorem C1_decrypt_encrypt_roundtrip (P : AEPrims) (key iv data : Bytes)
    (hP : P.Good) (hkey : validKeyLength key = true) (hiv : iv.length = 16) :
    ∃ out, Encrypt P key iv data = .ok out ∧ Decrypt P key out = .ok data := by
  have henc : Encrypt P key iv data
      = .ok (iv ++ P.cbcEnc key iv (pkcs7pad data)
          ++ P.mac key (iv ++ P.cbcEnc key iv (pkcs7pad data))) := by
    unfold Encrypt
    rw [if_pos hkey]
  exact ⟨_, henc, decrypt_encrypt_aux P key iv data _ hP hiv henc⟩

theorem C1_witness :
    ∃ out,
      Encrypt idPrims (List.replicate 16 0) (List.replicate 16 0) [1, 2, 3] = .ok out ∧
      Decrypt idPrims (List.replicate 16 0) out = .ok [1, 2, 3] :=
  C1_decrypt_encrypt_roundtrip idPrims (List.replicate 16 0) (List.replicate 16 0)
    [1, 2, 3] idPrims_good (by rfl) (by rfl)

/-- Claim C3: `Decrypt` fails with the invalid-length error exactly when
`len(input) < 64` or `(len(input) - 32) mod 16 ≠ 0`.  The equivalence is
quantified over every key (including invalid-length keys) and every
primitive instantiation, which establishes the priority of this check
over key setup, MAC computation and decryption. -/
theorem C3_invalid_length_iff (P : AEPrims) (key data : Bytes) :
    Decrypt P key data = .error .invalidLength ↔
      data.length < 64 ∨ (data.length - 32) % 16 ≠ 0 :=
  invalidLength_iff P key data

/-- Claim C4: on well-formed-length input with a valid key, `Decrypt`
fails with the authentication error (returning no plaintext) exactly
when the recomputed MAC over `input[:len-32]` differs from the trailing
32 bytes. -/
theorem C4_auth_failed_iff (P : AEPrims) (key data : Bytes)
    (hlen : 64 ≤ data.length) (hmod : (data.length - 32) % 16 = 0)
    (hkey : validKeyLength key = true) :
    Decrypt P key data = .error .invalidHMAC ↔
      P.mac key (data.take (data.length - 32)) ≠ data.drop (data.length - 32) := by
  unfold Decrypt
  rw [if_neg (by omega), if_pos hkey]
  by_cases hm : P.mac key (data.take (data.length - 32))
      = data.drop (data.length - 32)
  · rw [if_pos hm]
    simp only [hm, ne_eq, not_true_eq_false, iff_false]
    split <;> simp
  · rw [if_neg hm]
    simp [hm]

theorem C4_witness :
    Decrypt idPrims (List.replicate 16 0)
      (List.replicate 32 7 ++ List.replicate 32 1) = .error .invalidHMAC :=
  (C4_auth_failed_iff idPrims (List.replicate 16 0)
      (List.replicate 32 7 ++ List.replicate 32 1)
      (by decide) (by decide) (by rfl)).mpr (by decide)

/-- Claim C5: a successful `Encrypt` output has length
`len(data) + pad + 48` with `pad = 16 - len(data) % 16` (a full extra
block of 16 value-16 bytes when the length is already a multiple of 16),
hence total length ≥ 64 with `(length - 32) mod 16 = 0`, so every
`Encrypt` output passes `Decrypt`'s length validation. -/
theorem C5_encrypt_length_invariant (P : AEPrims) (key iv data out : Bytes)
    (hP : P.Good) (hiv : iv.length = 16) (henc : Encrypt P key iv data = .ok out) :
    out.length = data.length + (16 - data.length % 16) + 48 ∧
    64 ≤ out.length ∧ (out.length - 32) % 16 = 0 ∧
    (data.length % 16 = 0 → pkcs7pad data = data ++ List.replicate 16 16) ∧
    Decrypt P key out ≠ .error .invalidLength := by
  have hlen := encrypt_ok_length P key iv data out hP hiv henc
  refine ⟨hlen, by omega, by omega, ?_, ?_⟩
  · intro hz
    rw [pkcs7pad_def, hz]
  · rw [ne_eq, invalidLength_iff]
    omega

theorem C5_witness :
    (List.replicate 16 0 ++ pkcs7pad [] ++ List.replicate 32 0 : Bytes).length
        = ([] : Bytes).length + (16 - ([] : Bytes).length % 16) + 48 ∧
    64 ≤ (List.replicate 16 0 ++ pkcs7pad [] ++ List.replicate 32 0 : Bytes).length ∧
    ((List.replicate 16 0 ++ pkcs7pad [] ++ List.replicate 32 0 : Bytes).length - 32) % 16
        = 0 ∧
    (([] : Bytes).length % 16 = 0 → pkcs7pad [] = [] ++ List.replicate 16 16) ∧
    Decrypt idPrims (List.replicate 16 0)
        (List.replicate 16 0 ++ pkcs7pad [] ++ List.replicate 32 0)
      ≠ .error .invalidLength :=
  C5_encrypt_length_invariant idPrims (List.replicate 16 0) (List.replicate 16 0) []
    (List.replicate 16 0 ++ pkcs7pad [] ++ List.replicate 32 0)
    idPrims_good (by rfl) (by rfl)

/-- Claim C6 (code evaluated at the failing input): an input that passes
the length and MAC checks and whose decrypted last byte is 0 — a
malformed padding count — is not rejected: `Decrypt` silently returns
the decrypted block un-truncated instead of failing. -/
theorem C6_padding_zero_accepted :
    Decrypt idPrims (List.replicate 16 0)
      (List.replicate 16 0 ++ (List.replicate 15 7 ++ [0]) ++ List.replicate 32 0)
      = .ok (List.replicate 15 7 ++ [0]) := by rfl

/-- Claim C10 (counterexample): a 64-byte input that passes the length
and MAC checks but whose decrypted last byte (255) exceeds the length of
the CBC-decrypted data (16): the truncation index is out of range and
the final Go slice expression panics (`sliceBound`), so `Decrypt` does
not complete. -/
theorem C10_counterexample :
    Decrypt idPrims (List.replicate 16 0)
      (List.replicate 16 0 ++ (List.replicate 15 0 ++ [255]) ++ List.replicate 32 0)
      = .error .sliceBound := by rfl

/-- Claim C10 (amended): on inputs produced by `Encrypt` under the same
key, the padding count read from the last decrypted byte is at most the
decrypted length, so the truncation stays in bounds and `Decrypt` never
hits the out-of-bounds slice. -/
theorem C10_encrypt_no_slice_panic (P : AEPrims) (key iv data out : Bytes)
    (hP : P.Good) (hiv : iv.length = 16) (henc : Encrypt P key iv data = .ok out) :
    Decrypt P key out ≠ .error .sliceBound := by
  rw [decrypt_encrypt_aux P key iv data out hP hiv henc]
  simp

theorem C10_witness :
    Decrypt idPrims (List.replicate 16 0)
        (List.replicate 16 0 ++ pkcs7pad [5] ++ List.replicate 32 0)
      ≠ .error .sliceBound :=
  C10_encrypt_no_slice_panic idPrims (List.replicate 16 0) (List.replicate 16 0) [5]
    (List.replicate 16 0 ++ pkcs7pad [5] ++ List.replicate 32 0)
    idPrims_good (by rfl) (by rfl)

/-- The position-wise loop equals the take-and-compare formulation of
"matches the path's segments positionally". -/
theorem segMatches_iff_take (base : List String) :
    ∀ comps : List String,
      segMatches base comps = true ↔ comps.take base.length = base := by
  induction base with
  | nil => intro comps; simp [segMatches]
  | cons b bs ih =>
    intro comps
    cases comps with
    | nil => simp [segMatches]
    | cons c cs =>
      rw [List.length_cons, List.take_succ_cons]
      simp only [segMatches, Bool.and_eq_true, beq_iff_eq, ih cs, List.cons.injEq]
      constructor
      · rintro ⟨h1, h2⟩; exact ⟨h1.symm, h2⟩
      · rintro ⟨h1, h2⟩; exact ⟨h1.symm, h2⟩

/-- Reading of `segExtends` in the spec's words: strictly more segments, equal on
the queried path's segments. -/
theorem segExtends_iff (base comps : List String) :
    segExtends base comps = true ↔
      base.length < comps.length ∧ comps.take base.length = base := by
  rw [segExtends, Bool.and_eq_true, decide_eq_true_eq, segMatches_iff_take]

theorem lookupKey_eq_some_of_mem (c : AssetStore) (p : String) (v : Bytes)
    (hnd : (c.map Prod.fst).Nodup) (hm : (p, v) ∈ c) : lookupKey c p = some v := by
  induction c with
  | nil => simp at hm
  | cons kv rest ih =>
    rw [List.map_cons, List.nodup_cons] at hnd
    rcases List.mem_cons.mp hm with h | h
    · rw [lookupKey, List.find?_cons_of_pos _ (by rw [← h]; simp)]
      rw [← h]
      rfl
    · have hne : (kv.1 == p) = false := by
        rw [beq_eq_false_iff_ne]
        intro he
        exact hnd.1 (he ▸ List.mem_map.mpr ⟨(p, v), h, rfl⟩)
      rw [lookupKey, List.find?_cons_of_neg _ (by simp [hne])]
      exact ih hnd.2 h

theorem lookupKey_eq_none (c : AssetStore) (p : String)
    (h : ∀ kv ∈ c, kv.1 ≠ p) : lookupKey c p = none := by
  rw [lookupKey, List.find?_eq_none.mpr, Option.map_none']
  intro kv hkv
  simpa using h kv hkv

/-- When `p` is not a key, `Open` returns the synthetic directory
exactly when some stored key passes the `segExtends` test, and
`notFound` otherwise. -/
theorem open_cases (c : AssetStore) (p : String) (hnone : lookupKey c p = none) :
    (Open c p = .dir p ↔
      c.any (fun kv => segExtends (pathComponents p) (pathComponents kv.1)) = true) ∧
    (Open c p = .notFound ↔
      ¬ c.any (fun kv => segExtends (pathComponents p) (pathComponents kv.1)) = true) := by
  unfold Open
  rw [hnone]
  by_cases ha : c.any (fun kv => segExtends (pathComponents p) (pathComponents kv.1)) = true
  · rw [if_pos ha]
    simp [ha]
  · rw [if_neg ha]
    simp [ha]

/-- Claim C2: `Open` resolution order — exact key match returns the leaf
over that key's blob; otherwise a stored key whose segment sequence
strictly extends the path's segments positionally yields a synthetic
directory (and `notFound` exactly when no such key exists); the root
resolves as a directory whenever the store is non-empty, given the data
model invariant that every key has at least one non-empty segment. -/
theorem C2_open_resolution (c : AssetStore) (p : String)
    (hnd : (c.map Prod.fst).Nodup) :
    (∀ v, (p, v) ∈ c → Open c p = .leaf p v) ∧
    ((∀ kv ∈ c, kv.1 ≠ p) →
      (Open c p = .dir p ↔
        ∃ kv ∈ c, (pathComponents p).length < (pathComponents kv.1).length ∧
          (pathComponents kv.1).take (pathComponents p).length = pathComponents p) ∧
      (Open c p = .notFound ↔
        ¬ ∃ kv ∈ c, (pathComponents p).length < (pathComponents kv.1).length ∧
          (pathComponents kv.1).take (pathComponents p).length = pathComponents p)) ∧
    (c ≠ [] → (∀ kv ∈ c, pathComponents kv.1 ≠ []) → Open c "" = .dir "") := by
  refine ⟨?_, ?_, ?_⟩
  · intro v hm
    unfold Open
    rw [lookupKey_eq_some_of_mem c p v hnd hm]
  · intro hnk
    have hcases := open_cases c p (lookupKey_eq_none c p hnk)
    have hany :
        c.any (fun kv => segExtends (pathComponents p) (pathComponents kv.1)) = true ↔
          ∃ kv ∈ c, (pathComponents p).length < (pathComponents kv.1).length ∧
            (pathComponents kv.1).take (pathComponents p).length = pathComponents p := by
      rw [List.any_eq_true]
      constructor
      · rintro ⟨kv, hkv, hext⟩
        exact ⟨kv, hkv, (segExtends_iff _ _).mp hext⟩
      · rintro ⟨kv, hkv, hext⟩
        exact ⟨kv, hkv, (segExtends_iff _ _).mpr hext⟩
    exact ⟨hcases.1.trans hany, hcases.2.trans (not_congr hany)⟩
  · intro hne hcomp
    have hnk : ∀ kv ∈ c, kv.1 ≠ "" := fun kv hkv he =>
      hcomp kv hkv (by rw [he]; rfl)
    have hcases := open_cases c "" (lookupKey_eq_none c "" hnk)
    rw [hcases.1, List.any_eq_true]
    obtain ⟨kv, hkv⟩ := List.exists_mem_of_ne_nil c hne
    refine ⟨kv, hkv, ?_⟩
    rw [segExtends_iff]
    exact ⟨by
      show (pathComponents "").length < _
      rw [show pathComponents "" = [] from rfl]
      exact List.length_pos.mpr (hcomp kv hkv), by
      rw [show pathComponents "" = [] from rfl]
      simp⟩

theorem C2_witness :
    Open [("/a/b.txt", [1])] "" = .dir "" :=
  (C2_open_resolution [("/a/b.txt", [1])] "" (by decide)).2.2 (by decide) (by decide)

theorem contains_iff (l : List String) (a : String) : l.contains a = true ↔ a ∈ l := by
  simp [List.contains_iff_exists_mem_beq]

theorem dedupGo_mem (l : List String) (s : String) :
    ∀ acc : List String, s ∈ dedupGo acc l ↔ s ∈ acc ∨ s ∈ l := by
  induction l with
  | nil => intro acc; simp [dedupGo]
  | cons a as ih =>
    intro acc
    rw [dedupGo]
    by_cases h : acc.contains a
    · rw [if_pos h, ih]
      have ha : a ∈ acc := (contains_iff acc a).mp h
      constructor
      · rintro (h1 | h1)
        · exact Or.inl h1
        · exact Or.inr (List.mem_cons_of_mem _ h1)
      · rintro (h1 | h1)
        · exact Or.inl h1
        · rcases List.mem_cons.mp h1 with rfl | h1
          · exact Or.inl ha
          · exact Or.inr h1
    · rw [if_neg h, ih]
      simp only [List.mem_append, List.mem_singleton, List.mem_cons]
      tauto

theorem dedup_mem (l : List String) (s : String) : s ∈ dedup l ↔ s ∈ l := by
  rw [dedup, dedupGo_mem]
  simp

theorem dedupGo_nodup (l : List String) :
    ∀ acc : List String, acc.Nodup → (dedupGo acc l).Nodup := by
  induction l with
  | nil => intro acc h; simpa [dedupGo]
  | cons a as ih =>
    intro acc h
    rw [dedupGo]
    by_cases hc : acc.contains a
    · rw [if_pos hc]
      exact ih _ h
    · rw [if_neg hc]
      apply ih
      rw [List.nodup_append]
      refine ⟨h, List.nodup_singleton a, ?_⟩
      intro x hx hxa
      rw [List.mem_singleton] at hxa
      exact hc ((contains_iff acc a).mpr (hxa ▸ hx))

theorem dedup_nodup (l : List String) : (dedup l).Nodup :=
  dedupGo_nodup l [] List.nodup_nil

/-- The `Readdir` guard in the spec's vocabulary: a key other than the
directory path itself, carrying the directory path as a string prefix,
and matching the directory's segments positionally. -/
theorem readdirMatch_iff (p k : String) :
    readdirMatch p k = true ↔
      k ≠ p ∧ strStartsWith k p = true ∧
        (pathComponents k).take (pathComponents p).length = pathComponents p := by
  rw [readdirMatch, Bool.and_eq_true, Bool.and_eq_true, Bool.not_eq_true',
    beq_eq_false_iff_ne, segMatches_iff_take]
  tauto

theorem readdirAll_leaf_mem (c : AssetStore) (p k : String) (v : Bytes) :
    Entry.leafE k v ∈ readdirAll c p ↔
      (k, v) ∈ c ∧ readdirMatch p k = true ∧
        (pathComponents k).length ≤ (pathComponents p).length + 1 := by
  unfold readdirAll
  simp only [List.mem_append, List.mem_map]
  constructor
  · rintro (⟨kv, hkv, he⟩ | ⟨s, _, he⟩)
    · injection he with h1 h2
      subst h1
      subst h2
      rw [List.mem_filter, Bool.and_eq_true, Bool.not_eq_true',
        decide_eq_false_iff_not] at hkv
      exact ⟨hkv.1, hkv.2.1, by omega⟩
    · exact absurd he (by simp)
  · rintro ⟨hm, hmatch, hlen⟩
    left
    refine ⟨(k, v), List.mem_filter.mpr ⟨hm, ?_⟩, rfl⟩
    rw [Bool.and_eq_true, Bool.not_eq_true', decide_eq_false_iff_not]
    dsimp only
    exact ⟨hmatch, by omega⟩

theorem readdirAll_dir_mem (c : AssetStore) (p d : String) :
    Entry.dirE d ∈ readdirAll c p ↔
      ∃ kv ∈ c, readdirMatch p kv.1 = true ∧
        (pathComponents p).length + 1 < (pathComponents kv.1).length ∧
        d = childDirName p kv.1 := by
  unfold readdirAll
  simp only [List.mem_append, List.mem_map]
  constructor
  · rintro (⟨kv, _, he⟩ | ⟨s, hs, he⟩)
    · exact absurd he (by simp)
    · injection he with h1
      subst h1
      rw [dedup_mem] at hs
      obtain ⟨kv, hkv, he2⟩ := List.mem_map.mp hs
      rw [List.mem_filter, Bool.and_eq_true, decide_eq_true_eq] at hkv
      exact ⟨kv, hkv.1, hkv.2.1, hkv.2.2, he2.symm⟩
  · rintro ⟨kv, hkv, hmatch, hdeep, rfl⟩
    right
    refine ⟨childDirName p kv.1, (dedup_mem _ _).mpr ?_, rfl⟩
    refine List.mem_map.mpr ⟨kv, List.mem_filter.mpr ⟨hkv, ?_⟩, rfl⟩
    rw [Bool.and_eq_true, decide_eq_true_eq]
    exact ⟨hmatch, hdeep⟩

theorem readdirAll_nodup (c : AssetStore) (p : String)
    (hnd : (c.map Prod.fst).Nodup) : (readdirAll c p).Nodup := by
  unfold readdirAll
  rw [List.nodup_append]
  refine ⟨?_, ?_, ?_⟩
  · refine List.Nodup.map ?_ ((hnd.of_map Prod.fst).filter _)
    intro a b hab
    injection hab with h1 h2
    exact Prod.ext h1 h2
  · refine List.Nodup.map ?_ (dedup_nodup _)
    intro a b hab
    injection hab
  · intro e he1 he2
    obtain ⟨kv, _, he⟩ := List.mem_map.mp he1
    obtain ⟨s, _, he'⟩ := List.mem_map.mp he2
    rw [← he] at he'
    exact absurd he' (by simp)

/-- Claim C7 (counterexample): the store holds the single key `/a/b`,
whose segment sequence `[a, b]` strictly extends the segments `[a]` of
the path `a` by exactly one segment, and `Open` accordingly resolves `a`
as a synthetic directory — yet `Readdir` lists nothing, because `/a/b`
does not carry the directory path `a` as a *string* prefix
(`strings.HasPrefix("/a/b", "a")` is false). -/
theorem C7_counterexample :
    Open [("/a/b", [1])] "a" = .dir "a" ∧
    (pathComponents "/a/b").length = (pathComponents "a").length + 1 ∧
    (pathComponents "/a/b").take (pathComponents "a").length = pathComponents "a" ∧
    readdirAll [("/a/b", [1])] "a" = [] :=
  ⟨rfl, rfl, rfl, rfl⟩

/-- Claim C7 (amended): `Readdir` on a directory enumerates exactly the
stored keys that carry the directory's path as a string prefix AND
extend its segments positionally: each such key at most one segment
deeper appears as one leaf entry, and each deeper key is collapsed into
a synthetic directory entry for its immediate child segment,
de-duplicated, so the listing holds no duplicates. -/
theorem C7_children_characterization (c : AssetStore) (p : String)
    (hnd : (c.map Prod.fst).Nodup) :
    (∀ k v, Entry.leafE k v ∈ readdirAll c p ↔
      (k, v) ∈ c ∧ k ≠ p ∧ strStartsWith k p = true ∧
        (pathComponents k).take (pathComponents p).length = pathComponents p ∧
        (pathComponents k).length ≤ (pathComponents p).length + 1) ∧
    (∀ d, Entry.dirE d ∈ readdirAll c p ↔
      ∃ kv ∈ c, kv.1 ≠ p ∧ strStartsWith kv.1 p = true ∧
        (pathComponents kv.1).take (pathComponents p).length = pathComponents p ∧
        (pathComponents p).length + 1 < (pathComponents kv.1).length ∧
        d = childDirName p kv.1) ∧
    (readdirAll c p).Nodup := by
  refine ⟨?_, ?_, readdirAll_nodup c p hnd⟩
  · intro k v
    rw [readdirAll_leaf_mem, readdirMatch_iff]
    tauto
  · intro d
    rw [readdirAll_dir_mem]
    constructor
    · rintro ⟨kv, hkv, hmatch, hdeep, rfl⟩
      rw [readdirMatch_iff] at hmatch
      exact ⟨kv, hkv, hmatch.1, hmatch.2.1, hmatch.2.2, hdeep, rfl⟩
    · rintro ⟨kv, hkv, h1, h2, h3, hdeep, rfl⟩
      exact ⟨kv, hkv, readdirMatch_iff p kv.1 |>.mpr ⟨h1, h2, h3⟩, hdeep, rfl⟩

theorem C7_witness :
    Entry.leafE "/a/b.txt" [1]
        ∈ readdirAll [("/a/b.txt", [1]), ("/a/c/d.txt", [2])] "/a" ∧
    Entry.dirE "a/c" ∈ readdirAll [("/a/b.txt", [1]), ("/a/c/d.txt", [2])] "/a" ∧
    (readdirAll [("/a/b.txt", [1]), ("/a/c/d.txt", [2])] "/a").Nodup := by
  have h := C7_children_characterization [("/a/b.txt", [1]), ("/a/c/d.txt", [2])] "/a"
    (by decide)
  exact ⟨(h.1 "/a/b.txt" [1]).mpr (by decide), (h.2.1 "a/c").mpr (by decide), h.2.2⟩

/-- Claim C8: the pagination contract of `Readdir` on a directory
handle.  With `count > 0` a call returns the next at-most-`count`
entries of the (recomputed) child list and advances the offset by the
number returned; with `count ≤ 0` it returns the full remaining set;
when the listing is exhausted (`offset ≥ total`) it returns nothing,
signals `io.EOF` (the `true` flag) and resets the offset to 0, so the
following call restarts from the first entry. -/
theorem C8_pagination (c : AssetStore) (p : String) (off : Nat) (count : Int) :
    (0 < count →
      Readdir c ⟨p, none, off⟩ count
        = (((readdirAll c p).drop off).take count.toNat,
            (((readdirAll c p).drop off).take count.toNat).isEmpty,
            ⟨p, none,
              if (((readdirAll c p).drop off).take count.toNat).isEmpty then 0
              else off + (((readdirAll c p).drop off).take count.toNat).length⟩)) ∧
    (count ≤ 0 →
      Readdir c ⟨p, none, off⟩ count
        = ((readdirAll c p).drop off, ((readdirAll c p).drop off).isEmpty,
            ⟨p, none,
              if ((readdirAll c p).drop off).isEmpty then 0
              else off + ((readdirAll c p).drop off).length⟩)) ∧
    ((readdirAll c p).length ≤ off →
      Readdir c ⟨p, none, off⟩ count = ([], true, ⟨p, none, 0⟩)) := by
  have hdir : ¬ ((⟨p, none, off⟩ : VFile).data.isSome = true) := by simp
  refine ⟨?_, ?_, ?_⟩
  · intro hcount
    simp only [Readdir]
    rw [if_neg hdir]
    by_cases hcl : count < (((readdirAll c p).drop off).length : Int)
    · have hyes : 0 < count ∧ count < (((readdirAll c p).drop off).length : Int) :=
        ⟨hcount, hcl⟩
      rw [if_pos hyes]
      by_cases hemp : (((readdirAll c p).drop off).take count.toNat).isEmpty = true
      · rw [List.isEmpty_iff.mp hemp]
        simp
      · have hemp' : (((readdirAll c p).drop off).take count.toNat).isEmpty = false := by
          rwa [Bool.not_eq_true] at hemp
        rw [hemp']
        simp
    · have hnot : ¬ (0 < count ∧ count < (((readdirAll c p).drop off).length : Int)) :=
        fun h => hcl h.2
      rw [if_neg hnot]
      have htake : ((readdirAll c p).drop off).take count.toNat
          = (readdirAll c p).drop off := by
        apply List.take_of_length_le
        omega
      rw [htake]
      by_cases hemp : ((readdirAll c p).drop off).isEmpty = true
      · rw [List.isEmpty_iff.mp hemp]
        simp
      · have hemp' : ((readdirAll c p).drop off).isEmpty = false := by
          rwa [Bool.not_eq_true] at hemp
        rw [hemp']
        simp
  · intro hcount
    simp only [Readdir]
    have hnot : ¬ (0 < count ∧ count < (((readdirAll c p).drop off).length : Int)) :=
      fun h => absurd h.1 (by omega)
    rw [if_neg hdir, if_neg hnot]
    by_cases hemp : ((readdirAll c p).drop off).isEmpty = true
    · rw [List.isEmpty_iff.mp hemp]
      simp
    · have hemp' : ((readdirAll c p).drop off).isEmpty = false := by
        rwa [Bool.not_eq_true] at hemp
      rw [hemp']
      simp
  · intro hexh
    simp only [Readdir]
    rw [if_neg hdir, List.drop_eq_nil_of_le hexh]
    simp

theorem C8_witness :
    Readdir [("d/x", [0]), ("d/y", [1]), ("d/z", [2])] ⟨"d", none, 0⟩ 1
      = ([Entry.leafE "d/x" [0]], false, ⟨"d", none, 1⟩) := by
  have h := (C8_pagination [("d/x", [0]), ("d/y", [1]), ("d/z", [2])] "d" 0 1).1
    (by decide)
  rw [h]
  rfl

/-- Claim C9: when the bulk decryption pass hits an entry whose blob
fails `Decrypt`, it returns that entry's error immediately: every entry
before the failure has been replaced by its plaintext, the failing entry
and all later entries keep their original ciphertext. -/
theorem C9_partial_mutation (P : AEPrims) (key : Bytes) (pre post : AssetStore)
    (k : String) (v : Bytes) (e : CError)
    (hpre : ∀ kv ∈ pre, (Decrypt P key kv.2).isOk = true)
    (hfail : Decrypt P key v = .error e) :
    collectionDecrypt P key (pre ++ (k, v) :: post)
      = (pre.map (fun kv => (kv.1, decOk P key kv.2)) ++ (k, v) :: post, some e) := by
  induction pre with
  | nil =>
    rw [List.nil_append, List.map_nil, List.nil_append]
    simp only [collectionDecrypt, hfail]
  | cons kv rest ih =>
    have hok := hpre kv (List.mem_cons_self kv rest)
    obtain ⟨d, hd⟩ : ∃ d, Decrypt P key kv.2 = .ok d := by
      cases hdec : Decrypt P key kv.2 with
      | ok d => exact ⟨d, rfl⟩
      | error e' => exact absurd hok (by simp [hdec, Except.isOk, Except.toBool])
    cases kv with
    | mk k0 v0 =>
    rw [List.cons_append, List.map_cons]
    simp only [collectionDecrypt, hd]
    rw [ih (fun kv h => hpre kv (List.mem_cons_of_mem _ h))]
    simp [decOk, hd]

theorem C9_witness :
    collectionDecrypt idPrims (List.replicate 16 0)
      [("a", List.replicate 16 0 ++ pkcs7pad [9] ++ List.replicate 32 0), ("b", [1])]
      = ([("a", [9]), ("b", [1])], some .invalidLength) := by
  exact C9_partial_mutation idPrims (List.replicate 16 0)
    [("a", List.replicate 16 0 ++ pkcs7pad [9] ++ List.replicate 32 0)] []
    "b" [1] .invalidLength (by decide) (by rfl)

end Binassets
